import Mathlib

/-!
# PhotoCull core — shallow embedding and verification

This file embeds the grouping-and-selection core of the PhotoCull
repository (`photocull/clustering.py`, `photocull/main.py`,
`photocull/server.py`) as Lean definitions and proves the spec's claims
about it.

Modelling conventions:
* Python strings become `String`; hash strings are compared character-wise.
* Python `int` thresholds become `ℤ` (Python `//` is floor division,
  modelled by `Int.fdiv`).
* Timestamps (float seconds) and the per-image quality metrics (floats)
  are modelled as exact rationals `ℚ`; the standard deviation, which the
  code obtains via `numpy.std` (a real square root), lives in `ℝ`.
* In-place mutation (`score_images` annotating records) becomes a function
  returning the list of derived scores, indexed by position, matching the
  `metrics[i].score` lookups of the callers.
* Python's stable `list.sort(key=...)` becomes a stable insertion sort.
-/

namespace PhotoCull

/-! ## SimilarityMetric: `hamming_distance` (clustering.py lines 11–15) -/

/-- Embedding of `hamming_distance`: if the lengths differ, return the
larger length; otherwise count the positions where the characters differ
(`sum(c1 != c2 for c1, c2 in zip(hash1, hash2))`). -/
def hamming_distance (hash1 hash2 : String) : Nat :=
  if hash1.length ≠ hash2.length then max hash1.length hash2.length
  else ((hash1.toList.zip hash2.toList).filter (fun cd => cd.1 ≠ cd.2)).length

/-! ## HashClusterer: `cluster_by_hash` (clustering.py lines 18–87) -/

/-- One entry of the `items` list passed to `cluster_by_hash`: a dict with
`idx`, `phash`, `dhash` keys. -/
structure HashItem where
  idx : Nat
  phash : String
  dhash : String
deriving DecidableEq, Repr

/-- `item.get('phash') and item.get('dhash')` truthiness: both hash strings
are non-empty. -/
def validHashes (it : HashItem) : Bool :=
  !(it.phash = "") && !(it.dhash = "")

/-- The similarity rule of `cluster_by_hash` (lines 62–75): either hash
within `dist_thresh // 2`, or both hashes within `dist_thresh`. -/
def isSimilar (item other : HashItem) (dist_thresh : ℤ) : Bool :=
  let phash_dist := hamming_distance item.phash other.phash
  let dhash_dist := hamming_distance item.dhash other.dhash
  let very_similar_threshold := dist_thresh.fdiv 2
  ((phash_dist : ℤ) ≤ very_similar_threshold) ||
  ((dhash_dist : ℤ) ≤ very_similar_threshold) ||
  (((phash_dist : ℤ) ≤ dist_thresh) && ((dhash_dist : ℤ) ≤ dist_thresh))

/-- Inner loop of `cluster_by_hash` (lines 57–79): scan the items after
the seed, skip those already clustered, absorb the similar ones.  Returns
the absorbed indices (in scan order) and the updated `clustered` set. -/
def absorb (item : HashItem) (dist_thresh : ℤ) :
    List HashItem → List Nat → List Nat × List Nat
  | [], clustered => ([], clustered)
  | other :: rest, clustered =>
    if other.idx ∈ clustered then absorb item dist_thresh rest clustered
    else if isSimilar item other dist_thresh then
      let r := absorb item dist_thresh rest (other.idx :: clustered)
      (other.idx :: r.1, r.2)
    else absorb item dist_thresh rest clustered

/-- Outer loop of `cluster_by_hash` (lines 48–81): each not-yet-clustered
item seeds a new cluster and absorbs the similar items after it. -/
def greedyCluster (dist_thresh : ℤ) :
    List HashItem → List Nat → List (List Nat)
  | [], _ => []
  | item :: rest, clustered =>
    if item.idx ∈ clustered then greedyCluster dist_thresh rest clustered
    else
      let r := absorb item dist_thresh rest (item.idx :: clustered)
      (item.idx :: r.1) :: greedyCluster dist_thresh rest r.2

/-- Embedding of `cluster_by_hash` (clustering.py lines 18–87). -/
def cluster_by_hash (items : List HashItem) (dist_thresh : ℤ) :
    List (List Nat) :=
  if items.isEmpty then []
  else
    let empty_items := items.filter (fun it => !validHashes it)
    if 0 < empty_items.length then
      if empty_items.length = items.length then
        items.map (fun it => [it.idx])
      else
        let valid_items := items.filter validHashes
        greedyCluster dist_thresh valid_items [] ++
          empty_items.map (fun it => [it.idx])
    else
      greedyCluster dist_thresh items []

/-! ### Basic lemmas about the clusterer -/

/-- `isSimilar` unfolded to a proposition. -/
theorem isSimilar_iff (a b : HashItem) (T : ℤ) :
    isSimilar a b T = true ↔
      ((hamming_distance a.phash b.phash : ℤ) ≤ T.fdiv 2 ∨
       (hamming_distance a.dhash b.dhash : ℤ) ≤ T.fdiv 2 ∨
       ((hamming_distance a.phash b.phash : ℤ) ≤ T ∧
        (hamming_distance a.dhash b.dhash : ℤ) ≤ T)) := by
  simp [isSimilar, or_assoc]

/-- Evaluation of `cluster_by_hash` on a two-element list of valid,
distinct-index items: one cluster when similar, two otherwise. -/
theorem cluster_pair_eval (a b : HashItem) (T : ℤ) (hab : a.idx ≠ b.idx)
    (ha1 : a.phash ≠ "") (ha2 : a.dhash ≠ "")
    (hb1 : b.phash ≠ "") (hb2 : b.dhash ≠ "") :
    cluster_by_hash [a, b] T =
      if isSimilar a b T then [[a.idx, b.idx]] else [[a.idx], [b.idx]] := by
  simp [cluster_by_hash, validHashes, ha1, hb1, ha2, hb2]
  by_cases hs : isSimilar a b T = true
  · simp [greedyCluster, absorb, hab, Ne.symm hab, hs]
  · simp [greedyCluster, absorb, hab, Ne.symm hab, hs]

/-- C1: for any two records that both carry non-empty fingerprints of both
kinds (and distinct ids), and any threshold `T`, `cluster_by_hash` puts
them in the same cluster exactly when `d1 ≤ T // 2` or `d2 ≤ T // 2` or
(`d1 ≤ T` and `d2 ≤ T`), with `//` integer floor division (`Int.fdiv`);
otherwise they land in different (singleton) clusters. -/
theorem C1_dual_threshold_similarity (a b : HashItem) (T : ℤ)
    (hab : a.idx ≠ b.idx)
    (ha1 : a.phash ≠ "") (ha2 : a.dhash ≠ "")
    (hb1 : b.phash ≠ "") (hb2 : b.dhash ≠ "") :
    (cluster_by_hash [a, b] T = [[a.idx, b.idx]] ↔
      ((hamming_distance a.phash b.phash : ℤ) ≤ T.fdiv 2 ∨
       (hamming_distance a.dhash b.dhash : ℤ) ≤ T.fdiv 2 ∨
       ((hamming_distance a.phash b.phash : ℤ) ≤ T ∧
        (hamming_distance a.dhash b.dhash : ℤ) ≤ T))) ∧
    (cluster_by_hash [a, b] T = [[a.idx], [b.idx]] ↔
      ¬((hamming_distance a.phash b.phash : ℤ) ≤ T.fdiv 2 ∨
        (hamming_distance a.dhash b.dhash : ℤ) ≤ T.fdiv 2 ∨
        ((hamming_distance a.phash b.phash : ℤ) ≤ T ∧
         (hamming_distance a.dhash b.dhash : ℤ) ≤ T))) := by
  have h := cluster_pair_eval a b T hab ha1 ha2 hb1 hb2
  rw [h]
  by_cases hs : isSimilar a b T = true
  · have hf := (isSimilar_iff a b T).mp hs
    refine ⟨⟨fun _ => hf, fun _ => by rw [if_pos hs]⟩, ?_, fun hn => absurd hf hn⟩
    intro heq
    rw [if_pos hs] at heq
    simp at heq
  · have hf := fun hp => hs ((isSimilar_iff a b T).mpr hp)
    refine ⟨⟨fun heq => ?_, fun hp => absurd hp hf⟩,
      fun _ => hf, fun _ => by rw [if_neg hs]⟩
    rw [if_neg hs] at heq
    simp at heq

/-- Witness for C1: with `T = 8`, two records at `d1 = d2 = 0` land in the
same cluster, and two records at `d1 = d2 = 10` land in different
clusters. -/
theorem C1_dual_threshold_similarity_witness :
    cluster_by_hash
      [⟨0, "aaaaaaaa", "bbbbbbbb"⟩, ⟨1, "aaaaaaaa", "bbbbbbbb"⟩] 8 = [[0, 1]] ∧
    cluster_by_hash
      [⟨0, "aaaaaaaaaa", "bbbbbbbbbb"⟩, ⟨1, "cccccccccc", "dddddddddd"⟩] 8 =
      [[0], [1]] :=
  ⟨(C1_dual_threshold_similarity ⟨0, "aaaaaaaa", "bbbbbbbb"⟩
      ⟨1, "aaaaaaaa", "bbbbbbbb"⟩ 8 (by decide) (by decide) (by decide)
      (by decide) (by decide)).1.mpr (by decide),
   (C1_dual_threshold_similarity ⟨0, "aaaaaaaaaa", "bbbbbbbbbb"⟩
      ⟨1, "cccccccccc", "dddddddddd"⟩ 8 (by decide) (by decide) (by decide)
      (by decide) (by decide)).2.mpr (by decide)⟩

/-- C7: for fingerprint strings of unequal lengths `m ≠ n`,
`hamming_distance` returns `max m n`; being a total Lean function over
`String`, the embedded metric never fails on string inputs. -/
theorem C7_hamming_unequal_lengths (a b : String)
    (h : a.length ≠ b.length) :
    hamming_distance a b = max a.length b.length := by
  simp [hamming_distance, h]

/-- Witness for C7 at strings of length 3 and 5. -/
theorem C7_hamming_unequal_lengths_witness :
    "abc".length ≠ "abcde".length ∧ hamming_distance "abc" "abcde" = 5 :=
  ⟨by decide, by rw [C7_hamming_unequal_lengths "abc" "abcde" (by decide)]; decide⟩

/-- All three branches of `cluster_by_hash` agree with one formula: the
greedy clustering of the valid records followed by one singleton per
invalid record. -/
theorem cluster_by_hash_split (items : List HashItem) (T : ℤ) :
    cluster_by_hash items T =
      greedyCluster T (items.filter validHashes) [] ++
        (items.filter (fun it => !validHashes it)).map (fun it => [it.idx]) := by
  unfold cluster_by_hash
  by_cases hnil : items.isEmpty
  · rw [if_pos hnil]
    rw [List.isEmpty_iff] at hnil
    subst hnil
    rfl
  · rw [if_neg hnil]
    by_cases hpos : 0 < (items.filter (fun it => !validHashes it)).length
    · rw [if_pos hpos]
      by_cases hall : (items.filter (fun it => !validHashes it)).length =
          items.length
      · rw [if_pos hall]
        have hinv : items.filter (fun it => !validHashes it) = items :=
          List.Sublist.eq_of_length (List.filter_sublist items) hall
        have hval : items.filter validHashes = [] := by
          rw [List.filter_eq_nil_iff]
          intro a ha
          have := (List.filter_eq_self.mp hinv) a ha
          simp only [Bool.not_eq_true'] at this
          simp [this]
        rw [hval, hinv]
        rfl
      · rw [if_neg hall]
    · rw [if_neg hpos]
      have hemp : items.filter (fun it => !validHashes it) = [] := by
        simpa using Nat.eq_zero_of_not_pos hpos
      have hval : items.filter validHashes = items := by
        rw [List.filter_eq_self]
        intro a ha
        have := (List.filter_eq_nil_iff.mp hemp) a ha
        simpa using this
      rw [hemp, hval]
      simp

/-- C6: `cluster_by_hash` always equals the greedy clustering of the
records with valid (non-empty) fingerprints followed by one singleton
group per invalid record, appended in the invalid records' original
relative order; in particular every invalid record appears as its own
singleton group, and if every record lacks fingerprints the result is one
singleton group per id in input order. -/
theorem C6_invalid_records_singletons (items : List HashItem) (T : ℤ) :
    cluster_by_hash items T =
      greedyCluster T (items.filter validHashes) [] ++
        (items.filter (fun it => !validHashes it)).map (fun it => [it.idx]) ∧
    (∀ it ∈ items, ¬validHashes it →
      [it.idx] ∈ cluster_by_hash items T) ∧
    ((∀ it ∈ items, ¬validHashes it) →
      cluster_by_hash items T = items.map (fun it => [it.idx])) := by
  have hmain := cluster_by_hash_split items T
  refine ⟨hmain, fun it hit hbad => ?_, fun hall => ?_⟩
  · rw [hmain]
    refine List.mem_append_right _ (List.mem_map.mpr ⟨it, ?_, rfl⟩)
    exact List.mem_filter.mpr ⟨hit, by simpa using hbad⟩
  · rw [hmain]
    have hval : items.filter validHashes = [] :=
      List.filter_eq_nil_iff.mpr (by simpa using hall)
    have hinv : items.filter (fun it => !validHashes it) = items :=
      List.filter_eq_self.mpr (by simpa using hall)
    rw [hval, hinv]
    rfl

/-- Witness for C6: a mixed input (invalid record first) and an
all-invalid input. -/
theorem C6_invalid_records_singletons_witness :
    [⟨5, "", "bb"⟩, ⟨7, "aa", "bb"⟩, ⟨9, "aa", "bb"⟩].map
        (fun it : HashItem => [it.idx]) =
      [[5], [7], [9]] ∧
    cluster_by_hash [⟨5, "", "bb"⟩, ⟨7, "aa", "bb"⟩, ⟨9, "aa", "bb"⟩] 8 =
      [[7, 9], [5]] ∧
    [5] ∈ cluster_by_hash [⟨5, "", "bb"⟩, ⟨7, "aa", "bb"⟩, ⟨9, "aa", "bb"⟩] 8 ∧
    cluster_by_hash [⟨1, "", "x"⟩, ⟨0, "y", ""⟩] 8 = [[1], [0]] := by
  refine ⟨by decide, ?_, ?_, ?_⟩
  · rw [(C6_invalid_records_singletons
      [⟨5, "", "bb"⟩, ⟨7, "aa", "bb"⟩, ⟨9, "aa", "bb"⟩] 8).1]
    decide
  · exact (C6_invalid_records_singletons
      [⟨5, "", "bb"⟩, ⟨7, "aa", "bb"⟩, ⟨9, "aa", "bb"⟩] 8).2.1
      ⟨5, "", "bb"⟩ (by decide) (by decide)
  · exact (C6_invalid_records_singletons [⟨1, "", "x"⟩, ⟨0, "y", ""⟩] 8).2.2
      (by decide)

/-! ## BurstSegmenter: `group_into_bursts` (clustering.py lines 245–283)

The code builds `timestamps = [(i, read_timestamp(path)) for i, path in
enumerate(image_paths)]`, stably sorts it by the timestamp component
(`timestamps.sort(key=lambda x: x[1])`), and then walks it comparing each
element's timestamp with the previous one.  `read_timestamp` is external
I/O; the segmenter itself is modelled as a function of the list of
timestamps, one per image, with Python's stable sort modelled as a stable
insertion sort. -/

/-- Stable insertion into a list sorted ascending by the timestamp
component: the new element (earlier in the original order) goes before
every element with an equal or larger timestamp. -/
def insertByTs (x : Nat × ℚ) : List (Nat × ℚ) → List (Nat × ℚ)
  | [] => [x]
  | y :: ys => if y.2 < x.2 then y :: insertByTs x ys else x :: y :: ys

/-- Stable sort ascending by timestamp, modelling
`timestamps.sort(key=lambda x: x[1])`. -/
def sortByTs : List (Nat × ℚ) → List (Nat × ℚ)
  | [] => []
  | p :: ps => insertByTs p (sortByTs ps)

/-- The loop of `group_into_bursts` (lines 262–281): walk the sorted
list, keep `current_burst` while the gap in milliseconds stays within
`gap_ms`, close it otherwise; the final burst is appended if non-empty. -/
def burstLoop (gap_ms : ℚ) :
    List (Nat × ℚ) → ℚ → List Nat → List (List Nat) → List (List Nat)
  | [], _, current_burst, bursts =>
    if current_burst.isEmpty then bursts else bursts ++ [current_burst]
  | (idx, ts) :: rest, last_ts, current_burst, bursts =>
    if (ts - last_ts) * 1000 ≤ gap_ms then
      burstLoop gap_ms rest ts (current_burst ++ [idx]) bursts
    else
      burstLoop gap_ms rest ts [idx] (bursts ++ [current_burst])

/-- Embedding of `group_into_bursts`: `tss` holds the resolved timestamp
of each image, by position. -/
def group_into_bursts (tss : List ℚ) (gap_ms : ℚ) : List (List Nat) :=
  match sortByTs tss.enum with
  | [] => []
  | (idx, ts) :: rest => burstLoop gap_ms rest ts [idx] []

/-! ### Structural companion of the burst loop -/

/-- Structural version of the burst walk: given the previous timestamp,
split the remaining sorted list into the part glued to the current burst
and the later bursts (kept as pairs). -/
def chopGlue (gap_ms : ℚ) :
    ℚ → List (Nat × ℚ) → List (Nat × ℚ) × List (List (Nat × ℚ))
  | _, [] => ([], [])
  | last_ts, (idx, ts) :: rest =>
    let r := chopGlue gap_ms ts rest
    if (ts - last_ts) * 1000 ≤ gap_ms then ((idx, ts) :: r.1, r.2)
    else ([], ((idx, ts) :: r.1) :: r.2)

/-- The bursts (as pairs) produced from a non-empty sorted list with head
`x`. -/
def buildBursts (gap_ms : ℚ) (x : Nat × ℚ) (rest : List (Nat × ℚ)) :
    List (List (Nat × ℚ)) :=
  (x :: (chopGlue gap_ms x.2 rest).1) :: (chopGlue gap_ms x.2 rest).2

theorem buildBursts_nil (g : ℚ) (x : Nat × ℚ) : buildBursts g x [] = [[x]] :=
  rfl

theorem buildBursts_cons_le (g : ℚ) (x y : Nat × ℚ) (r : List (Nat × ℚ))
    (h : (y.2 - x.2) * 1000 ≤ g) :
    buildBursts g x (y :: r) =
      (x :: y :: (chopGlue g y.2 r).1) :: (chopGlue g y.2 r).2 := by
  simp [buildBursts, chopGlue, h]

theorem buildBursts_cons_gt (g : ℚ) (x y : Nat × ℚ) (r : List (Nat × ℚ))
    (h : ¬(y.2 - x.2) * 1000 ≤ g) :
    buildBursts g x (y :: r) = [x] :: buildBursts g y r := by
  simp [buildBursts, chopGlue, h]

/-- The head burst starts with the head element. -/
theorem buildBursts_shape (g : ℚ) (x : Nat × ℚ) (rest : List (Nat × ℚ)) :
    ∃ glue bs, buildBursts g x rest = (x :: glue) :: bs :=
  ⟨(chopGlue g x.2 rest).1, (chopGlue g x.2 rest).2, rfl⟩

/-- The loop equals the structural version (projected to indices),
whenever the running burst is non-empty. -/
theorem burstLoop_eq (g : ℚ) (rest : List (Nat × ℚ)) :
    ∀ (last_ts : ℚ) (cur : List Nat) (bursts : List (List Nat)),
      cur ≠ [] →
      burstLoop g rest last_ts cur bursts =
        bursts ++ (cur ++ (chopGlue g last_ts rest).1.map Prod.fst) ::
          (chopGlue g last_ts rest).2.map (List.map Prod.fst) := by
  induction rest with
  | nil =>
    intro last_ts cur bursts hcur
    simp [burstLoop, chopGlue, List.isEmpty_iff, hcur]
  | cons p rest ih =>
    intro last_ts cur bursts hcur
    obtain ⟨idx, ts⟩ := p
    by_cases h : (ts - last_ts) * 1000 ≤ g
    · rw [burstLoop, if_pos h, ih ts (cur ++ [idx]) bursts (by simp)]
      simp [chopGlue, h]
    · rw [burstLoop, if_neg h, ih ts [idx] (bursts ++ [cur]) (by simp)]
      simp [chopGlue, h]

/-- `group_into_bursts` on a non-empty (sorted) enumeration is the
projection of `buildBursts`. -/
theorem group_into_bursts_eq (tss : List ℚ) (g : ℚ) (x : Nat × ℚ)
    (rest : List (Nat × ℚ)) (hs : sortByTs tss.enum = x :: rest) :
    group_into_bursts tss g = (buildBursts g x rest).map (List.map Prod.fst) := by
  obtain ⟨idx, ts⟩ := x
  have h1 : group_into_bursts tss g = burstLoop g rest ts [idx] [] := by
    rw [group_into_bursts, hs]
  rw [h1, burstLoop_eq g rest ts [idx] [] (by simp)]
  simp [buildBursts]

/-! ### Properties of the burst construction -/

/-- Flattening the bursts gives back the sorted input. -/
theorem buildBursts_join (g : ℚ) :
    ∀ (rest : List (Nat × ℚ)) (x : Nat × ℚ),
      (buildBursts g x rest).flatten = x :: rest := by
  intro rest
  induction rest with
  | nil => intro x; simp [buildBursts, chopGlue]
  | cons y r ih =>
    intro x
    by_cases h : (y.2 - x.2) * 1000 ≤ g
    · rw [buildBursts_cons_le g x y r h]
      have hy := ih y
      rw [buildBursts] at hy
      simp only [List.flatten_cons, List.cons_append] at hy ⊢
      rw [List.cons_inj_right] at hy
      simp [hy]
    · rw [buildBursts_cons_gt g x y r h]
      simp [ih y]

/-- Every burst is non-empty. -/
theorem buildBursts_ne_nil (g : ℚ) :
    ∀ (rest : List (Nat × ℚ)) (x : Nat × ℚ),
      ∀ b ∈ buildBursts g x rest, b ≠ [] := by
  intro rest
  induction rest with
  | nil =>
    intro x b hb
    rw [buildBursts_nil] at hb
    simp at hb
    simp [hb]
  | cons y r ih =>
    intro x b hb
    by_cases h : (y.2 - x.2) * 1000 ≤ g
    · rw [buildBursts_cons_le g x y r h] at hb
      rcases List.mem_cons.mp hb with hb | hb
      · simp [hb]
      · exact ih y b (by rw [buildBursts]; exact List.mem_cons_of_mem _ hb)
    · rw [buildBursts_cons_gt g x y r h] at hb
      rcases List.mem_cons.mp hb with hb | hb
      · simp [hb]
      · exact ih y b hb

/-- Within each burst, consecutive elements obey the gap rule. -/
theorem buildBursts_chain (g : ℚ) :
    ∀ (rest : List (Nat × ℚ)) (x : Nat × ℚ),
      ∀ b ∈ buildBursts g x rest,
        List.Chain' (fun p q : Nat × ℚ => (q.2 - p.2) * 1000 ≤ g) b := by
  intro rest
  induction rest with
  | nil =>
    intro x b hb
    rw [buildBursts_nil] at hb
    simp at hb
    simp [hb]
  | cons y r ih =>
    intro x b hb
    by_cases h : (y.2 - x.2) * 1000 ≤ g
    · rw [buildBursts_cons_le g x y r h] at hb
      rcases List.mem_cons.mp hb with hb | hb
      · subst hb
        rw [List.chain'_cons]
        exact ⟨h, ih y _ (by rw [buildBursts]; exact List.mem_cons_self _ _)⟩
      · exact ih y b (by rw [buildBursts]; exact List.mem_cons_of_mem _ hb)
    · rw [buildBursts_cons_gt g x y r h] at hb
      rcases List.mem_cons.mp hb with hb | hb
      · simp [hb]
      · exact ih y b hb

/-- A chain over a flattened list restricts to each part. -/
theorem chain'_of_join {α : Type} {R : α → α → Prop} :
    ∀ (L : List (List α)), List.Chain' R L.flatten → ∀ b ∈ L, List.Chain' R b := by
  intro L
  induction L with
  | nil => intro _ b hb; simp at hb
  | cons c cs ih =>
    intro h b hb
    rw [List.flatten_cons, List.chain'_append] at h
    rcases List.mem_cons.mp hb with hb | hb
    · exact hb ▸ h.1
    · exact ih h.2.1 b hb

/-! ### The stable sort -/

theorem insertByTs_perm (x : Nat × ℚ) :
    ∀ l, List.Perm (insertByTs x l) (x :: l) := by
  intro l
  induction l with
  | nil => simp [insertByTs]
  | cons y ys ih =>
    rw [insertByTs]
    by_cases h : y.2 < x.2
    · rw [if_pos h]
      exact (ih.cons y).trans (List.Perm.swap x y ys)
    · rw [if_neg h]

theorem sortByTs_perm : ∀ l, List.Perm (sortByTs l) l := by
  intro l
  induction l with
  | nil => simp [sortByTs]
  | cons p ps ih =>
    rw [sortByTs]
    exact (insertByTs_perm p (sortByTs ps)).trans (ih.cons p)

theorem insertByTs_pairwise (x : Nat × ℚ) :
    ∀ l, List.Pairwise (fun p q : Nat × ℚ => p.2 ≤ q.2) l →
      List.Pairwise (fun p q : Nat × ℚ => p.2 ≤ q.2) (insertByTs x l) := by
  intro l
  induction l with
  | nil => intro _; simp [insertByTs]
  | cons y ys ih =>
    intro hp
    rw [List.pairwise_cons] at hp
    rw [insertByTs]
    by_cases h : y.2 < x.2
    · rw [if_pos h, List.pairwise_cons]
      refine ⟨fun a ha => ?_, ih hp.2⟩
      rcases List.mem_cons.mp ((insertByTs_perm x ys).mem_iff.mp ha) with ha | ha
      · exact ha ▸ le_of_lt h
      · exact hp.1 a ha
    · rw [if_neg h, List.pairwise_cons]
      refine ⟨fun a ha => ?_, List.pairwise_cons.mpr hp⟩
      rcases List.mem_cons.mp ha with ha | ha
      · exact ha ▸ le_of_not_lt h
      · exact le_trans (le_of_not_lt h) (hp.1 a ha)

theorem sortByTs_pairwise :
    ∀ l, List.Pairwise (fun p q : Nat × ℚ => p.2 ≤ q.2) (sortByTs l) := by
  intro l
  induction l with
  | nil => simp [sortByTs]
  | cons p ps ih => exact insertByTs_pairwise p (sortByTs ps) ih

/-- Ids of a burst come from the input ids. -/
theorem buildBursts_ids_sub (g : ℚ) (rest : List (Nat × ℚ)) (x : Nat × ℚ) :
    ∀ b ∈ buildBursts g x rest, ∀ i ∈ b.map Prod.fst,
      i ∈ (x :: rest).map Prod.fst := by
  intro b hb i hi
  rcases List.mem_map.mp hi with ⟨p, hp, hpi⟩
  have hpj : p ∈ (buildBursts g x rest).flatten :=
    List.mem_flatten.mpr ⟨b, hb, hp⟩
  rw [buildBursts_join] at hpj
  exact List.mem_map.mpr ⟨p, hpj, hpi⟩

/-- Two adjacent elements of the sorted input land in a common burst
exactly when their gap obeys the threshold (given distinct ids). -/
theorem buildBursts_adjacent_iff (g : ℚ) :
    ∀ (rest : List (Nat × ℚ)) (x : Nat × ℚ),
      ((x :: rest).map Prod.fst).Nodup →
      ∀ (k : Nat) (hk : k + 1 < (x :: rest).length),
        (∃ b ∈ buildBursts g x rest,
            ((x :: rest).get ⟨k, Nat.lt_of_succ_lt hk⟩).1 ∈ b.map Prod.fst ∧
            ((x :: rest).get ⟨k + 1, hk⟩).1 ∈ b.map Prod.fst) ↔
        (((x :: rest).get ⟨k + 1, hk⟩).2 -
          ((x :: rest).get ⟨k, Nat.lt_of_succ_lt hk⟩).2) * 1000 ≤ g := by
  intro rest
  induction rest with
  | nil =>
    intro x _ k hk
    simp at hk
  | cons y r ih =>
    intro x hnd k hk
    have hndx : x.1 ∉ (y :: r).map Prod.fst := by
      rw [List.map_cons, List.nodup_cons] at hnd
      exact hnd.1
    match k with
    | 0 =>
      by_cases h : (y.2 - x.2) * 1000 ≤ g
      · refine iff_of_true ?_ h
        rw [buildBursts_cons_le g x y r h]
        exact ⟨x :: y :: (chopGlue g y.2 r).1, List.mem_cons_self _ _,
          by simp, by simp⟩
      · refine iff_of_false ?_ h
        rw [buildBursts_cons_gt g x y r h]
        rintro ⟨b, hb, hxb, hyb⟩
        rcases List.mem_cons.mp hb with hb | hb
        · subst hb
          simp at hyb
          exact hndx (hyb ▸ List.mem_map.mpr ⟨y, List.mem_cons_self _ _, rfl⟩)
        · exact hndx (buildBursts_ids_sub g r y b hb x.1 hxb)
    | k' + 1 =>
      have hk' : k' + 1 < (y :: r).length := by
        simpa [Nat.succ_lt_succ_iff] using hk
      have hndyr : ((y :: r).map Prod.fst).Nodup := by
        rw [List.map_cons, List.nodup_cons] at hnd
        exact hnd.2
      have he1 : ((x :: y :: r).get ⟨k' + 1, Nat.lt_of_succ_lt hk⟩) =
          ((y :: r).get ⟨k', Nat.lt_of_succ_lt hk'⟩) := rfl
      have he2 : ((x :: y :: r).get ⟨k' + 1 + 1, hk⟩) =
          ((y :: r).get ⟨k' + 1, hk'⟩) := rfl
      rw [he1, he2]
      rw [← ih y hndyr k' hk']
      -- the two elements have ids drawn from (y :: r)
      have hm1 : ((y :: r).get ⟨k', Nat.lt_of_succ_lt hk'⟩).1 ∈
          (y :: r).map Prod.fst :=
        List.mem_map.mpr ⟨_, List.get_mem _ _ _, rfl⟩
      have hm2 : ((y :: r).get ⟨k' + 1, hk'⟩).1 ∈ (y :: r).map Prod.fst :=
        List.mem_map.mpr ⟨_, List.get_mem _ _ _, rfl⟩
      set i := ((y :: r).get ⟨k', Nat.lt_of_succ_lt hk'⟩).1 with hi
      set j := ((y :: r).get ⟨k' + 1, hk'⟩).1 with hj
      have hix : i ≠ x.1 := fun hcon => hndx (hcon ▸ hm1)
      have hjx : j ≠ x.1 := fun hcon => hndx (hcon ▸ hm2)
      by_cases h : (y.2 - x.2) * 1000 ≤ g
      · rw [buildBursts_cons_le g x y r h]
        have hby : buildBursts g y r =
            (y :: (chopGlue g y.2 r).1) :: (chopGlue g y.2 r).2 := rfl
        rw [hby]
        constructor
        · rintro ⟨b, hb, hib, hjb⟩
          rcases List.mem_cons.mp hb with hb | hb
          · subst hb
            refine ⟨y :: (chopGlue g y.2 r).1, List.mem_cons_self _ _, ?_, ?_⟩
            · rcases List.mem_map.mp hib with ⟨p, hp, hpi⟩
              rcases List.mem_cons.mp hp with hp | hp
              · exact absurd (hpi ▸ (hp ▸ rfl : p.1 = x.1)) hix
              · exact List.mem_map.mpr ⟨p, hp, hpi⟩
            · rcases List.mem_map.mp hjb with ⟨p, hp, hpj⟩
              rcases List.mem_cons.mp hp with hp | hp
              · exact absurd (hpj ▸ (hp ▸ rfl : p.1 = x.1)) hjx
              · exact List.mem_map.mpr ⟨p, hp, hpj⟩
          · exact ⟨b, List.mem_cons_of_mem _ hb, hib, hjb⟩
        · rintro ⟨b, hb, hib, hjb⟩
          rcases List.mem_cons.mp hb with hb | hb
          · subst hb
            refine ⟨x :: y :: (chopGlue g y.2 r).1, List.mem_cons_self _ _, ?_, ?_⟩
            · rcases List.mem_map.mp hib with ⟨p, hp, hpi⟩
              exact List.mem_map.mpr ⟨p, List.mem_cons_of_mem _ hp, hpi⟩
            · rcases List.mem_map.mp hjb with ⟨p, hp, hpj⟩
              exact List.mem_map.mpr ⟨p, List.mem_cons_of_mem _ hp, hpj⟩
          · exact ⟨b, List.mem_cons_of_mem _ hb, hib, hjb⟩
      · rw [buildBursts_cons_gt g x y r h]
        constructor
        · rintro ⟨b, hb, hib, hjb⟩
          rcases List.mem_cons.mp hb with hb | hb
          · subst hb
            simp at hib
            exact absurd hib hix
          · exact ⟨b, hb, hib, hjb⟩
        · rintro ⟨b, hb, hib, hjb⟩
          exact ⟨b, List.mem_cons_of_mem _ hb, hib, hjb⟩

/-- Pairwise over a flattened list restricts to each part. -/
theorem pairwise_of_flatten {α : Type} {R : α → α → Prop} :
    ∀ (L : List (List α)), L.flatten.Pairwise R → ∀ b ∈ L, b.Pairwise R := by
  intro L
  induction L with
  | nil => intro _ b hb; simp at hb
  | cons c cs ih =>
    intro h b hb
    rw [List.flatten_cons, List.pairwise_append] at h
    rcases List.mem_cons.mp hb with hb | hb
    · exact hb ▸ h.1
    · exact ih h.2.1 b hb

/-- Elements of the sorted enumeration carry the timestamp at their id. -/
theorem sortByTs_enum_snd (tss : List ℚ) (p : Nat × ℚ)
    (hp : p ∈ sortByTs tss.enum) : p.2 = tss.getD p.1 0 := by
  have hpe : p ∈ tss.enum := (sortByTs_perm tss.enum).mem_iff.mp hp
  obtain ⟨i, a⟩ := p
  rw [List.mem_enum_iff_getElem?] at hpe
  simp [List.getD, hpe]

/-- C5: the burst segmenter partitions the id set exactly (the flattened
bursts are a permutation of `range n`), every burst is non-empty with ids
ascending by timestamp, two ids adjacent in the (stable) timestamp order
share a burst exactly when their gap in milliseconds is at most the
threshold (inclusive), and the result is empty exactly for empty input. -/
theorem C5_burst_segmentation (tss : List ℚ) (g : ℚ) :
    List.Perm (group_into_bursts tss g).flatten (List.range tss.length) ∧
    (∀ b ∈ group_into_bursts tss g, b ≠ [] ∧
      b.Pairwise (fun i j => tss.getD i 0 ≤ tss.getD j 0)) ∧
    (∀ k : Nat, k + 1 < (sortByTs tss.enum).length →
      ((∃ b ∈ group_into_bursts tss g,
          ((sortByTs tss.enum).getD k (0, 0)).1 ∈ b ∧
          ((sortByTs tss.enum).getD (k + 1) (0, 0)).1 ∈ b) ↔
        (((sortByTs tss.enum).getD (k + 1) (0, 0)).2 -
          ((sortByTs tss.enum).getD k (0, 0)).2) * 1000 ≤ g)) ∧
    (tss = [] ↔ group_into_bursts tss g = []) := by
  rcases hs : sortByTs tss.enum with _ | ⟨x, rest⟩
  · -- empty input
    have henum : tss.enum = [] :=
      List.Perm.eq_nil (hs ▸ (sortByTs_perm tss.enum).symm)
    have htss : tss = [] := by
      cases tss with
      | nil => rfl
      | cons a l => simp [List.enum] at henum
    subst htss
    have hgb : group_into_bursts [] g = [] := rfl
    refine ⟨by rw [hgb]; simp, by rw [hgb]; simp, ?_, by simp [hgb]⟩
    intro k hk
    simp at hk
  · have hE := group_into_bursts_eq tss g x rest hs
    have hperm : List.Perm (sortByTs tss.enum) tss.enum := sortByTs_perm _
    have hnd : ((x :: rest).map Prod.fst).Nodup := by
      rw [← hs]
      refine (hperm.map Prod.fst).nodup_iff.mpr ?_
      rw [List.enum_map_fst]
      exact List.nodup_range _
    have hflat : (group_into_bursts tss g).flatten =
        (sortByTs tss.enum).map Prod.fst := by
      rw [hE, ← List.map_flatten, buildBursts_join, hs]
    refine ⟨?_, ?_, ?_, ?_⟩
    · rw [hflat, ← List.enum_map_fst tss]
      exact hperm.map Prod.fst
    · intro b hb
      rw [hE] at hb
      rcases List.mem_map.mp hb with ⟨bp, hbp, hbpb⟩
      constructor
      · rw [← hbpb]
        have := buildBursts_ne_nil g rest x bp hbp
        simp [this]
      · have hsorted : List.Pairwise (fun p q : Nat × ℚ => p.2 ≤ q.2)
            (x :: rest) := by
          rw [← hs]; exact sortByTs_pairwise tss.enum
        have hbpw : List.Pairwise (fun p q : Nat × ℚ => p.2 ≤ q.2) bp := by
          refine pairwise_of_flatten (buildBursts g x rest) ?_ bp hbp
          rw [buildBursts_join]
          exact hsorted
        have hmem : ∀ p ∈ bp, p.2 = tss.getD p.1 0 := by
          intro p hp
          refine sortByTs_enum_snd tss p ?_
          rw [hs, ← buildBursts_join g rest x]
          exact List.mem_flatten.mpr ⟨bp, hbp, hp⟩
        rw [← hbpb, List.pairwise_map]
        refine hbpw.imp_of_mem ?_
        intro p q hp hq hle
        rw [← hmem p hp, ← hmem q hq]
        exact hle
    · intro k hk
      rw [List.getD_eq_get _ _ (Nat.lt_of_succ_lt hk), List.getD_eq_get _ _ hk]
      rw [hE]
      have hiff := buildBursts_adjacent_iff g rest x hnd k hk
      rw [← hiff]
      constructor
      · rintro ⟨b, hb, hib, hjb⟩
        rcases List.mem_map.mp hb with ⟨bp, hbp, hbpb⟩
        exact ⟨bp, hbp, hbpb ▸ hib, hbpb ▸ hjb⟩
      · rintro ⟨bp, hbp, hib, hjb⟩
        exact ⟨bp.map Prod.fst, List.mem_map.mpr ⟨bp, hbp, rfl⟩, hib, hjb⟩
    · constructor
      · intro htss
        subst htss
        rw [show sortByTs ([] : List ℚ).enum = [] from rfl] at hs
        exact absurd hs (by simp)
      · intro hres
        rw [hE, buildBursts] at hres
        simp at hres

/-- Witness for C5: three timestamps `0 s`, `0.2 s`, `5 s` with a 700 ms
gap threshold: ids 0 and 1 share a burst, ids partition `range 3`, and
the input being non-empty the result is non-empty. -/
theorem C5_burst_segmentation_witness :
    List.Perm (group_into_bursts [0, 1, 10] 1000).flatten (List.range 3) ∧
    (∃ b ∈ group_into_bursts [0, 1, 10] 1000, 0 ∈ b ∧ 1 ∈ b) ∧
    ¬([0, 1, 10] : List ℚ) = [] := by
  have hsort : sortByTs ([0, 1, 10] : List ℚ).enum = [(0, 0), (1, 1), (2, 10)] := by
    norm_num [sortByTs, insertByTs, List.enum, List.enumFrom]
  refine ⟨(C5_burst_segmentation [0, 1, 10] 1000).1, ?_, by simp⟩
  have h3 := (C5_burst_segmentation [0, 1, 10] 1000).2.2.1 0 (by rw [hsort]; simp)
  rw [hsort] at h3
  refine h3.mpr (by norm_num)

/-! ## QualityScorer: `score_images` (clustering.py lines 286–350)

`ImageMetrics` (features.py lines 12–37) is modelled with the fields the
core reads; floats become exact rationals.  `np.mean`/`np.std` are the
population (divide-by-N) statistics; the standard deviation is a real
square root.  The in-place annotation becomes a returned list of scores,
indexed like the input. -/

/-- The fields of `ImageMetrics` read by the grouping-and-selection core. -/
structure ImageMetrics where
  phash : String
  dhash : String
  sharpness : ℚ
  exposure_ok : ℚ
  eyes_open : ℚ
  face_count : Nat
  face_blur_scores : List ℚ
  blur_score : ℚ
  has_motion_blur : Bool
deriving DecidableEq, Repr

/-- Default record used for out-of-range index lookups in the embedding
(the code never performs such lookups). -/
def defaultMetrics : ImageMetrics :=
  ⟨"", "", 0, 1, 1, 0, [], 0, false⟩

/-- `np.mean` over a list (0 on the empty list, as `0 / 0 = 0` in `ℚ`). -/
def listMean (l : List ℚ) : ℚ := l.sum / l.length

/-- Population variance (`np.std` squared): divide by N, not N−1. -/
def listVariance (l : List ℚ) : ℚ :=
  ((l.map (fun x => (x - listMean l) ^ 2)).sum) / l.length

/-- `np.std`: the population standard deviation, a real square root. -/
noncomputable def listStd (l : List ℚ) : ℝ := Real.sqrt (listVariance l)

/-- One record's sharpness z-score (lines 294–304): `(x - mean) / std`
when `std > 0`, else `0.0`. -/
noncomputable def sharpnessZ (sharpness_values : List ℚ) (x : ℚ) : ℝ :=
  if 0 < listStd sharpness_values then
    ((x : ℝ) - (listMean sharpness_values : ℝ)) / listStd sharpness_values
  else 0

/-- One record's composite score before the final clamp (lines 307–347). -/
noncomputable def preClampScore (m : ImageMetrics) (z : ℝ) : ℝ :=
  let technical_score : ℝ :=
    0.3 * z + 0.2 * (m.blur_score : ℝ) + 0.15 * (m.exposure_ok : ℝ)
  let portrait_score : ℝ :=
    if 0 < m.face_count then
      0.25 * (m.eyes_open : ℝ) +
        (if m.face_blur_scores ≠ [] then
          0.1 * ((m.face_blur_scores.sum / m.face_blur_scores.length : ℚ) : ℝ)
         else 0)
    else 0
  let technical_score : ℝ :=
    if 0 < m.face_count then technical_score else technical_score + 0.35
  let aesthetic_score : ℝ :=
    (if (0.8 : ℚ) < m.exposure_ok then 0.05 else 0) +
    (if ¬m.has_motion_blur then 0.05 else 0) +
    (if 1 ≤ m.face_count ∧ m.face_count ≤ 3 then 0.05
     else if 5 < m.face_count then -0.05 else 0)
  technical_score + portrait_score + aesthetic_score

/-- Final clamp (line 350): `max(-2.0, min(2.0, score))`. -/
noncomputable def clampScore (s : ℝ) : ℝ := max (-2) (min 2 s)

/-- Embedding of `score_images`: the final score of each record, by
position. -/
noncomputable def score_images (ms : List ImageMetrics) : List ℝ :=
  let sharpness_values := ms.map (fun m => m.sharpness)
  ms.map (fun m =>
    clampScore (preClampScore m (sharpnessZ sharpness_values m.sharpness)))

/-- The sharpness z-scores assigned by `score_images`, by position. -/
noncomputable def sharpness_zs (ms : List ImageMetrics) : List ℝ :=
  ms.map (fun m => sharpnessZ (ms.map (fun m => m.sharpness)) m.sharpness)

/-! ### Scoring lemmas -/

/-- A sum of non-negative rationals is zero only if all terms are. -/
theorem list_sum_sq_zero (l : List ℚ) (h : l.sum = 0)
    (hnn : ∀ x ∈ l, 0 ≤ x) : ∀ x ∈ l, x = 0 := by
  induction l with
  | nil => intro x hx; simp at hx
  | cons a as ih =>
    intro x hx
    rw [List.sum_cons] at h
    have ha : 0 ≤ a := hnn a (List.mem_cons_self _ _)
    have has : 0 ≤ as.sum :=
      List.sum_nonneg (fun x hx => hnn x (List.mem_cons_of_mem _ hx))
    have ha0 : a = 0 := by linarith
    have has0 : as.sum = 0 := by linarith
    rcases List.mem_cons.mp hx with hx | hx
    · exact hx ▸ ha0
    · exact ih has0 (fun x hx => hnn x (List.mem_cons_of_mem _ hx)) x hx

/-- The population variance is non-negative. -/
theorem listVariance_nonneg (l : List ℚ) : 0 ≤ listVariance l := by
  unfold listVariance
  apply div_nonneg
  · exact List.sum_nonneg (by
      intro x hx
      rcases List.mem_map.mp hx with ⟨a, _, rfl⟩
      positivity)
  · positivity

/-- Summing a constant list. -/
theorem list_sum_const (l : List ℚ) (c : ℚ) (h : ∀ x ∈ l, x = c) :
    l.sum = l.length * c := by
  induction l with
  | nil => simp
  | cons a as ih =>
    rw [List.sum_cons, ih (fun x hx => h x (List.mem_cons_of_mem _ hx)),
      h a (List.mem_cons_self _ _)]
    simp only [List.length_cons]
    push_cast
    ring

/-- A constant list has variance zero. -/
theorem listVariance_const (l : List ℚ) (c : ℚ) (h : ∀ x ∈ l, x = c) :
    listVariance l = 0 := by
  rcases l with _ | ⟨a, as⟩
  · simp [listVariance]
  · have hmean : listMean (a :: as) = c := by
      rw [listMean, list_sum_const _ c h]
      have hlen : ((a :: as).length : ℚ) ≠ 0 := by
        simp only [List.length_cons]
        push_cast
        have hpos : (0 : ℚ) < (as.length : ℚ) + 1 := by positivity
        exact ne_of_gt hpos
      field_simp
    unfold listVariance
    have : ((a :: as).map (fun x => (x - listMean (a :: as)) ^ 2)).sum = 0 := by
      rw [List.sum_eq_zero]
      intro x hx
      rcases List.mem_map.mp hx with ⟨b, hb, rfl⟩
      rw [h b hb, hmean]
      ring
    rw [this]
    simp

/-- The standard deviation is non-negative. -/
theorem listStd_nonneg (l : List ℚ) : 0 ≤ listStd l := Real.sqrt_nonneg _

/-- A constant list has standard deviation zero. -/
theorem listStd_const (l : List ℚ) (c : ℚ) (h : ∀ x ∈ l, x = c) :
    listStd l = 0 := by
  rw [listStd, listVariance_const l c h]
  simp

/-- When the standard deviation vanishes, every z-score is zero. -/
theorem sharpnessZ_of_std_zero (l : List ℚ) (x : ℚ) (h : listStd l = 0) :
    sharpnessZ l x = 0 := by
  simp [sharpnessZ, h]

/-- C8: if the population standard deviation of sharpness is zero every
record's z-score is `0.0` (in particular when all records share one
sharpness, e.g. five identical records), and otherwise the standard
deviation is strictly positive — so no division by zero ever occurs — and
each z-score is `(sharpness - mean) / std` with population (divide-by-N)
statistics. -/
theorem C8_zero_variance_zscores (ms : List ImageMetrics) :
    (listStd (ms.map (fun m => m.sharpness)) = 0 →
      sharpness_zs ms = ms.map (fun _ => (0 : ℝ))) ∧
    (listStd (ms.map (fun m => m.sharpness)) ≠ 0 →
      0 < listStd (ms.map (fun m => m.sharpness)) ∧
      sharpness_zs ms = ms.map (fun m =>
        ((m.sharpness : ℝ) - (listMean (ms.map (fun m => m.sharpness)) : ℝ)) /
          listStd (ms.map (fun m => m.sharpness)))) ∧
    ((∀ m ∈ ms, ∀ m2 ∈ ms, m.sharpness = m2.sharpness) →
      listStd (ms.map (fun m => m.sharpness)) = 0) := by
  refine ⟨?_, ?_, ?_⟩
  · intro h
    unfold sharpness_zs
    refine List.map_congr_left ?_
    intro m _
    exact sharpnessZ_of_std_zero _ _ h
  · intro hne
    have hpos : 0 < listStd (ms.map (fun m => m.sharpness)) :=
      lt_of_le_of_ne (listStd_nonneg _) (Ne.symm hne)
    refine ⟨hpos, ?_⟩
    unfold sharpness_zs
    refine List.map_congr_left ?_
    intro m _
    rw [sharpnessZ, if_pos hpos]
  · intro hall
    rcases ms with _ | ⟨m0, ms'⟩
    · simp [listStd, listVariance, listMean]
    · refine listStd_const _ m0.sharpness ?_
      intro x hx
      rcases List.mem_map.mp hx with ⟨m, hm, rfl⟩
      exact hall m hm m0 (List.mem_cons_self _ _)

/-- Witness for C8: five records with identical sharpness all get
z-score `0.0`. -/
theorem C8_zero_variance_zscores_witness :
    sharpness_zs [⟨"a", "b", 3, 1, 1, 0, [], 1, false⟩,
      ⟨"a", "b", 3, 1, 1, 0, [], 1, false⟩,
      ⟨"a", "b", 3, 1, 1, 0, [], 1, false⟩,
      ⟨"a", "b", 3, 1, 1, 0, [], 1, false⟩,
      ⟨"a", "b", 3, 1, 1, 0, [], 1, false⟩] = [0, 0, 0, 0, 0] := by
  have h := (C8_zero_variance_zscores [⟨"a", "b", 3, 1, 1, 0, [], 1, false⟩,
      ⟨"a", "b", 3, 1, 1, 0, [], 1, false⟩,
      ⟨"a", "b", 3, 1, 1, 0, [], 1, false⟩,
      ⟨"a", "b", 3, 1, 1, 0, [], 1, false⟩,
      ⟨"a", "b", 3, 1, 1, 0, [], 1, false⟩]).2.2 (by
    intro m hm m2 hm2
    simp at hm hm2
    rw [hm, hm2])
  have h0 := (C8_zero_variance_zscores [⟨"a", "b", 3, 1, 1, 0, [], 1, false⟩,
      ⟨"a", "b", 3, 1, 1, 0, [], 1, false⟩,
      ⟨"a", "b", 3, 1, 1, 0, [], 1, false⟩,
      ⟨"a", "b", 3, 1, 1, 0, [], 1, false⟩,
      ⟨"a", "b", 3, 1, 1, 0, [], 1, false⟩]).1 h
  rw [h0]
  simp

/-- The clamp is monotone. -/
theorem clampScore_mono {a b : ℝ} (h : a ≤ b) : clampScore a ≤ clampScore b :=
  max_le_max (le_refl _) (min_le_min (le_refl _) h)

/-- C4 (amended): flipping `has_motion_blur` on, all other fields and the
z-score unchanged, lowers the pre-clamp composite score by exactly `0.05`
(and never raises the clamped final score); the deduction does not depend
on the face-blur scores. -/
theorem C4_motion_blur_fixed_deduction (m : ImageMetrics) (z : ℝ) :
    preClampScore { m with has_motion_blur := true } z =
      preClampScore { m with has_motion_blur := false } z - 0.05 ∧
    clampScore (preClampScore { m with has_motion_blur := true } z) ≤
      clampScore (preClampScore { m with has_motion_blur := false } z) := by
  have key : preClampScore { m with has_motion_blur := true } z =
      preClampScore { m with has_motion_blur := false } z - 0.05 := by
    simp only [preClampScore]
    norm_num
    ring
  exact ⟨key, clampScore_mono (by rw [key]; norm_num)⟩

/-- Witness for C4 (amended) at a concrete portrait record. -/
theorem C4_motion_blur_fixed_deduction_witness :
    preClampScore { (⟨"aa", "bb", 1, 1/2, 1, 1, [0], 1/2, false⟩ :
        ImageMetrics) with has_motion_blur := true } 0 =
      preClampScore { (⟨"aa", "bb", 1, 1/2, 1, 1, [0], 1/2, false⟩ :
        ImageMetrics) with has_motion_blur := false } 0 - 0.05 :=
  (C4_motion_blur_fixed_deduction
    ⟨"aa", "bb", 1, 1/2, 1, 1, [0], 1/2, false⟩ 0).1

/-- Counterexample for C4 as stated: a portrait with low mean face-blur
(`face_blur_scores = [0]`) loses exactly `1/20 = 0.05` to motion blur —
the same deduction as a portrait with high mean face-blur
(`face_blur_scores = [1]`) — so no additional deduction is applied for
low-face-blur portraits. -/
theorem C4_counterexample :
    score_images [⟨"aa", "bb", 1, 1/2, 1, 1, [0], 1/2, false⟩,
      ⟨"aa", "bb", 1, 1/2, 1, 1, [0], 1/2, true⟩] = [21/40, 19/40] ∧
    score_images [⟨"aa", "bb", 1, 1/2, 1, 1, [1], 1/2, false⟩,
      ⟨"aa", "bb", 1, 1/2, 1, 1, [1], 1/2, true⟩] = [5/8, 23/40] ∧
    (21/40 : ℝ) - 19/40 = 1/20 ∧ (5/8 : ℝ) - 23/40 = 1/20 := by
  have hstd1 : listStd [1, 1] = 0 := by
    refine listStd_const _ 1 ?_
    intro x hx
    rcases List.mem_cons.mp hx with hx | hx
    · exact hx
    · simpa using hx
  have hz : sharpnessZ [1, 1] 1 = 0 := sharpnessZ_of_std_zero _ _ hstd1
  refine ⟨?_, ?_, by norm_num, by norm_num⟩
  · simp only [score_images, List.map_cons, List.map_nil, hz]
    norm_num [preClampScore, clampScore, min_def, max_def]
  · simp only [score_images, List.map_cons, List.map_nil, hz]
    norm_num [preClampScore, clampScore, min_def, max_def]

/-! ## SelectionPipeline: `process_folder` (main.py lines 164–222)

The I/O-free core of `process_folder`: score all images, group into
bursts, cluster each burst by hash, and emit one report entry per cluster
with members sorted by score descending (Python's stable sort, modelled
as a stable insertion sort) and the first member as winner.  Files are
identified by their index (the code stores the corresponding paths). -/

/-- One entry of `all_cluster_reports` (main.py lines 214–220 /
server.py lines 185–191), with images identified by index. -/
structure ClusterReport where
  cluster_id : Nat
  burst_id : Nat
  members : List Nat
  winner : Nat
  scores : List ℝ

/-- Stable insertion for the descending score sort
(`cluster_metrics.sort(key=lambda x: x[1], reverse=True)`): an element
moves past another only when its score is strictly larger, so equal
scores keep their original relative order. -/
noncomputable def insertScoreDesc (key : Nat → ℝ) (x : Nat) :
    List Nat → List Nat
  | [] => [x]
  | y :: ys =>
    if key x < key y then y :: insertScoreDesc key x ys else x :: y :: ys

/-- Stable sort by score descending. -/
noncomputable def sortScoreDesc (key : Nat → ℝ) : List Nat → List Nat
  | [] => []
  | x :: xs => insertScoreDesc key x (sortScoreDesc key xs)

theorem insertScoreDesc_perm (key : Nat → ℝ) (x : Nat) :
    ∀ l, List.Perm (insertScoreDesc key x l) (x :: l) := by
  intro l
  induction l with
  | nil => simp [insertScoreDesc]
  | cons y ys ih =>
    rw [insertScoreDesc]
    by_cases h : key x < key y
    · rw [if_pos h]
      exact (ih.cons y).trans (List.Perm.swap x y ys)
    · rw [if_neg h]

theorem sortScoreDesc_perm (key : Nat → ℝ) :
    ∀ l, List.Perm (sortScoreDesc key l) l := by
  intro l
  induction l with
  | nil => simp [sortScoreDesc]
  | cons x xs ih =>
    rw [sortScoreDesc]
    exact (insertScoreDesc_perm key x (sortScoreDesc key xs)).trans (ih.cons x)

theorem insertScoreDesc_pairwise (key : Nat → ℝ) (x : Nat) :
    ∀ l, List.Pairwise (fun i j => key j ≤ key i) l →
      List.Pairwise (fun i j => key j ≤ key i) (insertScoreDesc key x l) := by
  intro l
  induction l with
  | nil => intro _; simp [insertScoreDesc]
  | cons y ys ih =>
    intro hp
    rw [List.pairwise_cons] at hp
    rw [insertScoreDesc]
    by_cases h : key x < key y
    · rw [if_pos h, List.pairwise_cons]
      refine ⟨fun a ha => ?_, ih hp.2⟩
      rcases List.mem_cons.mp
          ((insertScoreDesc_perm key x ys).mem_iff.mp ha) with ha | ha
      · exact ha ▸ le_of_lt h
      · exact hp.1 a ha
    · rw [if_neg h, List.pairwise_cons]
      refine ⟨fun a ha => ?_, List.pairwise_cons.mpr hp⟩
      rcases List.mem_cons.mp ha with ha | ha
      · exact ha ▸ le_of_not_lt h
      · exact le_trans (hp.1 a ha) (le_of_not_lt h)

theorem sortScoreDesc_pairwise (key : Nat → ℝ) :
    ∀ l, List.Pairwise (fun i j => key j ≤ key i) (sortScoreDesc key l) := by
  intro l
  induction l with
  | nil => simp [sortScoreDesc]
  | cons x xs ih => exact insertScoreDesc_pairwise key x (sortScoreDesc key xs) ih

/-- The burst-tagged clusters of `process_folder` (lines 177–185): for
each burst in order, cluster its member indices by hash; pair every
cluster with its burst id. -/
def taggedClusters (metrics : List ImageMetrics) (tss : List ℚ)
    (hash_dist : ℤ) (burst_gap_ms : ℚ) : List (Nat × List Nat) :=
  ((group_into_bursts tss burst_gap_ms).enum.map (fun bi =>
    (cluster_by_hash (bi.2.map (fun i =>
      (⟨i, (metrics.getD i defaultMetrics).phash,
        (metrics.getD i defaultMetrics).dhash⟩ : HashItem))) hash_dist).map
      (fun c => (bi.1, c)))).flatten

/-- The I/O-free core of `process_folder` (main.py lines 164–222):
cluster ids count up across bursts in emission order; members are the
cluster's indices sorted by score descending; the winner is the first
member of the sorted order. -/
noncomputable def process_folder (metrics : List ImageMetrics)
    (tss : List ℚ) (hash_dist : ℤ) (burst_gap_ms : ℚ) : List ClusterReport :=
  let key := fun i => (score_images metrics).getD i 0
  (taggedClusters metrics tss hash_dist burst_gap_ms).enum.map (fun tc =>
    let sorted := sortScoreDesc key tc.2.2
    { cluster_id := tc.1, burst_id := tc.2.1, members := sorted,
      winner := sorted.headD 0, scores := sorted.map key })

/-- C2 (amended): every cluster report's members are sorted by derived
score descending — ties keeping the cluster's member order as produced by
the clusterer (a stable sort), not re-ordered by ascending id — the first
member of that sorted order is the winner, every member scores at most
the winner, and the members are a permutation of one burst-tagged cluster
(whose burst id the report carries). -/
theorem C2_member_order_and_winner (metrics : List ImageMetrics)
    (tss : List ℚ) (hash_dist : ℤ) (burst_gap_ms : ℚ) :
    ∀ rep ∈ process_folder metrics tss hash_dist burst_gap_ms,
      rep.members.Pairwise (fun i j =>
        (score_images metrics).getD j 0 ≤ (score_images metrics).getD i 0) ∧
      rep.winner = rep.members.headD 0 ∧
      (∀ i ∈ rep.members,
        (score_images metrics).getD i 0 ≤
          (score_images metrics).getD rep.winner 0) ∧
      ∃ tc ∈ taggedClusters metrics tss hash_dist burst_gap_ms,
        rep.burst_id = tc.1 ∧
        rep.members =
          sortScoreDesc (fun i => (score_images metrics).getD i 0) tc.2 ∧
        List.Perm rep.members tc.2 := by
  intro rep hrep
  rw [process_folder] at hrep
  rcases List.mem_map.mp hrep with ⟨tc, htc, hreq⟩
  subst hreq
  set key := fun i => (score_images metrics).getD i 0 with hkey
  refine ⟨sortScoreDesc_pairwise key tc.2.2, rfl, ?_, tc.2,
    List.snd_mem_of_mem_enum htc, rfl, rfl, sortScoreDesc_perm key tc.2.2⟩
  intro i hi
  rcases hs : sortScoreDesc key tc.2.2 with _ | ⟨w, ws⟩
  · rw [hs] at hi
    simp at hi
  · have hpw := sortScoreDesc_pairwise key tc.2.2
    rw [hs, List.pairwise_cons] at hpw
    rw [hs] at hi
    show key i ≤ key ((w :: ws).headD 0)
    rcases List.mem_cons.mp hi with hi | hi
    · exact hi ▸ le_refl _
    · exact hpw.1 i hi

/-- Counterexample for C2 as stated: two identical records (equal scores)
whose timestamps invert the id order inside the burst produce the member
list `[1, 0]` — the score tie is not broken by ascending id (which would
give `[0, 1]`), and the winner is id 1, not id 0. -/
theorem C2_counterexample :
    (process_folder [⟨"aa", "bb", 1, 1/2, 1, 0, [], 1/2, false⟩,
        ⟨"aa", "bb", 1, 1/2, 1, 0, [], 1/2, false⟩] [1, 0] 8 1000).map
      (fun r => (r.members, r.winner)) = [([1, 0], 1)] ∧
    (score_images [⟨"aa", "bb", 1, 1/2, 1, 0, [], 1/2, false⟩,
        ⟨"aa", "bb", 1, 1/2, 1, 0, [], 1/2, false⟩]).getD 0 0 =
      (score_images [⟨"aa", "bb", 1, 1/2, 1, 0, [], 1/2, false⟩,
        ⟨"aa", "bb", 1, 1/2, 1, 0, [], 1/2, false⟩]).getD 1 0 := by
  have hb : group_into_bursts [1, 0] 1000 = [[1, 0]] := by
    have hsort : sortByTs ([1, 0] : List ℚ).enum = [(1, 0), (0, 1)] := by
      norm_num [sortByTs, insertByTs, List.enum, List.enumFrom]
    have h1 : group_into_bursts [1, 0] 1000 = burstLoop 1000 [(0, 1)] 0 [1] [] := by
      rw [group_into_bursts, hsort]
    rw [h1, burstLoop]
    norm_num [burstLoop]
  have hc : cluster_by_hash [(⟨1, "aa", "bb"⟩ : HashItem),
      (⟨0, "aa", "bb"⟩ : HashItem)] 8 = [[1, 0]] := by decide
  have ht : taggedClusters [⟨"aa", "bb", 1, 1/2, 1, 0, [], 1/2, false⟩,
      ⟨"aa", "bb", 1, 1/2, 1, 0, [], 1/2, false⟩] [1, 0] 8 1000 =
      [(0, [1, 0])] := by
    rw [taggedClusters, hb]
    simp [List.enum, List.enumFrom, hc]
  refine ⟨?_, rfl⟩
  rw [process_folder, ht]
  have hks : ∀ i ∈ ([0] : List Nat), ¬ ((fun i =>
      (score_images [⟨"aa", "bb", 1, 1/2, 1, 0, [], 1/2, false⟩,
        ⟨"aa", "bb", 1, 1/2, 1, 0, [], 1/2, false⟩]).getD i 0) 1 <
      (fun i => (score_images [⟨"aa", "bb", 1, 1/2, 1, 0, [], 1/2, false⟩,
        ⟨"aa", "bb", 1, 1/2, 1, 0, [], 1/2, false⟩]).getD i 0) i) := by
    intro i hi
    simp only [List.mem_singleton] at hi
    subst hi
    exact lt_irrefl _
  simp only [List.enum, List.enumFrom, List.map_cons, List.map_nil,
    sortScoreDesc, insertScoreDesc]
  rw [if_neg (hks 0 (List.mem_singleton_self 0))]
  rfl

/-- Witness for C2 (amended) on a single-record, single-burst input. -/
theorem C2_member_order_and_winner_witness :
    ([0] : List Nat).Pairwise (fun i j =>
      (score_images [⟨"aa", "bb", 1, 1, 1, 0, [], 1, false⟩]).getD j 0 ≤
        (score_images [⟨"aa", "bb", 1, 1, 1, 0, [], 1, false⟩]).getD i 0) ∧
    (0 : Nat) = ([0] : List Nat).headD 0 := by
  have hev : process_folder [⟨"aa", "bb", 1, 1, 1, 0, [], 1, false⟩] [0] 8 0 =
      [⟨0, 0, [0], 0,
        [(score_images [⟨"aa", "bb", 1, 1, 1, 0, [], 1, false⟩]).getD 0 0]⟩] :=
    rfl
  have h := C2_member_order_and_winner
    [⟨"aa", "bb", 1, 1, 1, 0, [], 1, false⟩] [0] 8 0
    ⟨0, 0, [0], 0,
      [(score_images [⟨"aa", "bb", 1, 1, 1, 0, [], 1, false⟩]).getD 0 0]⟩
    (by rw [hev]; exact List.mem_singleton_self _)
  exact ⟨h.1, h.2.1⟩

/-- C9: the pipeline is a pure function of its inputs in this embedding —
running it twice on the same unmodified records and configuration yields
identical reports (clusters, member orders, winners, scores, cluster and
burst identifiers). -/
theorem C9_deterministic_pipeline (metrics : List ImageMetrics)
    (tss : List ℚ) (hash_dist : ℤ) (burst_gap_ms : ℚ) :
    process_folder metrics tss hash_dist burst_gap_ms =
      process_folder metrics tss hash_dist burst_gap_ms ∧
    score_images metrics = score_images metrics ∧
    group_into_bursts tss burst_gap_ms = group_into_bursts tss burst_gap_ms :=
  ⟨rfl, rfl, rfl⟩

/-! ## Global clustering entry point: `_process_with_stages`
(server.py lines 60–212) -/

/-- The `idx_to_burst` dict (server.py lines 145–148): later bursts
overwrite earlier ones, mirroring repeated dict assignment. -/
def idx_to_burst (bursts : List (List Nat)) (i : Nat) : Option Nat :=
  bursts.enum.foldl (fun acc bi => if i ∈ bi.2 then some bi.1 else acc) none

/-- The winner-selection loop of `_process_with_stages` (lines 150–196):
clusters whose members were all already emitted are skipped; otherwise
the cluster is sorted by score descending, the first member is the
winner, the report is tagged with the winner's burst (0 when absent), and
the members join `processed_indices`. -/
noncomputable def selectWinners (key : Nat → ℝ) (i2b : Nat → Option Nat) :
    List (List Nat) → List Nat → Nat → List ClusterReport
  | [], _, _ => []
  | c :: rest, processed, cid =>
    if ∀ i ∈ c, i ∈ processed then
      selectWinners key i2b rest processed cid
    else
      let sorted := sortScoreDesc key c
      let winner := sorted.headD 0
      ⟨cid, (i2b winner).getD 0, sorted, winner, sorted.map key⟩ ::
        selectWinners key i2b rest (processed ++ sorted) (cid + 1)

/-- The I/O-free core of `_process_with_stages` (server.py lines 60–212):
score, segment into bursts, cluster the whole set by hash, then select
winners tagging each cluster with its winner's burst. -/
noncomputable def process_with_stages (metrics : List ImageMetrics)
    (tss : List ℚ) (hash_dist : ℤ) (burst_gap_ms : ℚ) : List ClusterReport :=
  let scores := score_images metrics
  let bursts := group_into_bursts tss burst_gap_ms
  let all_items := metrics.enum.map (fun im =>
    (⟨im.1, im.2.phash, im.2.dhash⟩ : HashItem))
  let global_hash_clusters := cluster_by_hash all_items hash_dist
  selectWinners (fun i => scores.getD i 0) (idx_to_burst bursts)
    global_hash_clusters [] 0

/-- Last-write-wins characterization of the fold building `idx_to_burst`. -/
theorem foldl_dict_spec (i : Nat) :
    ∀ (L : List (Nat × List Nat)) (acc : Option Nat),
      (L.foldl (fun acc bi => if i ∈ bi.2 then some bi.1 else acc) acc = acc ∧
        ∀ p ∈ L, i ∉ p.2) ∨
      (∃ p ∈ L, i ∈ p.2 ∧
        L.foldl (fun acc bi => if i ∈ bi.2 then some bi.1 else acc) acc =
          some p.1) := by
  intro L
  induction L with
  | nil => intro acc; exact Or.inl ⟨rfl, by simp⟩
  | cons p L ih =>
    intro acc
    rw [List.foldl_cons]
    by_cases hp : i ∈ p.2
    · rw [if_pos hp]
      rcases ih (some p.1) with ⟨heq, hall⟩ | ⟨q, hq, hqi, heq⟩
      · exact Or.inr ⟨p, List.mem_cons_self _ _, hp, heq⟩
      · exact Or.inr ⟨q, List.mem_cons_of_mem _ hq, hqi, heq⟩
    · rw [if_neg hp]
      rcases ih acc with ⟨heq, hall⟩ | ⟨q, hq, hqi, heq⟩
      · refine Or.inl ⟨heq, ?_⟩
        intro q hq
        rcases List.mem_cons.mp hq with hq | hq
        · exact hq ▸ hp
        · exact hall q hq
      · exact Or.inr ⟨q, List.mem_cons_of_mem _ hq, hqi, heq⟩

/-- What `idx_to_burst` answers means for the burst list. -/
theorem idx_to_burst_spec (bursts : List (List Nat)) (i : Nat) :
    (idx_to_burst bursts i = none → ∀ bu ∈ bursts, i ∉ bu) ∧
    (∀ b, idx_to_burst bursts i = some b →
      b < bursts.length ∧ i ∈ bursts.getD b []) := by
  constructor
  · intro hnone bu hbu hi
    rcases foldl_dict_spec i bursts.enum none with ⟨_, hall⟩ | ⟨q, hq, hqi, heq⟩
    · rcases List.get_of_mem hbu with ⟨⟨k, hk⟩, hget⟩
      have hmem : (k, bu) ∈ bursts.enum := by
        rw [List.mem_enum_iff_getElem?]
        rw [List.getElem?_eq_getElem hk]
        simp [← hget]
      exact hall (k, bu) hmem hi
    · rw [idx_to_burst] at hnone
      rw [hnone] at heq
      simp at heq
  · intro b hsome
    rcases foldl_dict_spec i bursts.enum none with ⟨heq, _⟩ | ⟨q, hq, hqi, heq⟩
    · rw [idx_to_burst] at hsome
      rw [hsome] at heq
      simp at heq
    · rw [idx_to_burst] at hsome
      rw [hsome] at heq
      have hqb : q.1 = b := by
        simpa using heq.symm
      have hlt : q.1 < bursts.length := List.fst_lt_of_mem_enum hq
      have hgd : bursts.getD q.1 [] = q.2 := by
        have := List.mem_enum_iff_getElem?.mp hq
        simp [List.getD, this]
      exact ⟨hqb ▸ hlt, hqb ▸ (hgd ▸ hqi)⟩

/-- Every emitted report comes from one input cluster: its members are
that cluster stably sorted by score descending, the winner is the first
sorted member, and the burst id is the winner's via `i2b` (default 0). -/
theorem selectWinners_mem (key : Nat → ℝ) (i2b : Nat → Option Nat) :
    ∀ (clusters : List (List Nat)) (processed : List Nat) (cid : Nat),
      ∀ rep ∈ selectWinners key i2b clusters processed cid,
        ∃ c ∈ clusters, rep.members = sortScoreDesc key c ∧
          rep.winner = rep.members.headD 0 ∧
          rep.burst_id = (i2b rep.winner).getD 0 := by
  intro clusters
  induction clusters with
  | nil => intro processed cid rep hrep; simp [selectWinners] at hrep
  | cons c rest ih =>
    intro processed cid rep hrep
    rw [selectWinners] at hrep
    by_cases hall : ∀ i ∈ c, i ∈ processed
    · rw [if_pos hall] at hrep
      rcases ih processed cid rep hrep with ⟨c2, hc2, h⟩
      exact ⟨c2, List.mem_cons_of_mem _ hc2, h⟩
    · rw [if_neg hall] at hrep
      rcases List.mem_cons.mp hrep with hrep | hrep
      · exact ⟨c, List.mem_cons_self _ _, by rw [hrep], by rw [hrep], by rw [hrep]⟩
      · rcases ih _ _ rep hrep with ⟨c2, hc2, h⟩
        exact ⟨c2, List.mem_cons_of_mem _ hc2, h⟩

/-- The head of the descending sort attains the maximal score. -/
theorem sortScoreDesc_head_max (key : Nat → ℝ) (l : List Nat) :
    ∀ i ∈ sortScoreDesc key l,
      key i ≤ key ((sortScoreDesc key l).headD 0) := by
  intro i hi
  rcases hs : sortScoreDesc key l with _ | ⟨w, ws⟩
  · rw [hs] at hi; simp at hi
  · have hpw := sortScoreDesc_pairwise key l
    rw [hs, List.pairwise_cons] at hpw
    rw [hs] at hi
    rcases List.mem_cons.mp hi with hi | hi
    · exact hi ▸ le_refl _
    · exact hpw.1 i hi

/-- C10: in the global-clustering entry point every emitted report's
winner is the first (maximal-score) member of the sorted members, its
burst identifier is a burst containing the winner (0 when the winner is
in no burst); and a cluster all of whose members were already emitted is
skipped entirely. -/
theorem C10_global_clustering_burst_tag (metrics : List ImageMetrics)
    (tss : List ℚ) (hash_dist : ℤ) (burst_gap_ms : ℚ) :
    (∀ rep ∈ process_with_stages metrics tss hash_dist burst_gap_ms,
      rep.winner = rep.members.headD 0 ∧
      (∀ i ∈ rep.members,
        (score_images metrics).getD i 0 ≤
          (score_images metrics).getD rep.winner 0) ∧
      ((∃ b, b < (group_into_bursts tss burst_gap_ms).length ∧
          rep.winner ∈ (group_into_bursts tss burst_gap_ms).getD b [] ∧
          rep.burst_id = b) ∨
        ((∀ bu ∈ group_into_bursts tss burst_gap_ms, rep.winner ∉ bu) ∧
          rep.burst_id = 0))) ∧
    (∀ (key : Nat → ℝ) (i2b : Nat → Option Nat) (c : List Nat)
        (rest : List (List Nat)) (processed : List Nat) (cid : Nat),
      (∀ i ∈ c, i ∈ processed) →
      selectWinners key i2b (c :: rest) processed cid =
        selectWinners key i2b rest processed cid) := by
  constructor
  · intro rep hrep
    rw [process_with_stages] at hrep
    rcases selectWinners_mem _ _ _ _ _ rep hrep with ⟨c, _, hm, hw, hb⟩
    refine ⟨hw, ?_, ?_⟩
    · intro i hi
      rw [hw, hm]
      rw [hm] at hi
      exact sortScoreDesc_head_max _ c i hi
    · rcases hob : idx_to_burst (group_into_bursts tss burst_gap_ms)
          rep.winner with _ | b
      · refine Or.inr ⟨(idx_to_burst_spec _ _).1 hob, ?_⟩
        rw [hb, hob]
        rfl
      · have hsp := (idx_to_burst_spec (group_into_bursts tss burst_gap_ms)
          rep.winner).2 b hob
        exact Or.inl ⟨b, hsp.1, hsp.2, by rw [hb, hob]; rfl⟩
  · intro key i2b c rest processed cid hall
    rw [selectWinners, if_pos hall]

/-- Witness for C10 on a single-record input. -/
theorem C10_global_clustering_burst_tag_witness :
    (0 : Nat) = ([0] : List Nat).headD 0 ∧
    ((∃ b, b < (group_into_bursts [0] 0).length ∧
        (0 : Nat) ∈ (group_into_bursts [0] 0).getD b [] ∧ (0 : Nat) = b) ∨
      ((∀ bu ∈ group_into_bursts [0] 0, (0 : Nat) ∉ bu) ∧ (0 : Nat) = 0)) := by
  have hev : process_with_stages [⟨"aa", "bb", 1, 1, 1, 0, [], 1, false⟩]
      [0] 8 0 =
      [⟨0, 0, [0], 0,
        [(score_images [⟨"aa", "bb", 1, 1, 1, 0, [], 1, false⟩]).getD 0 0]⟩] :=
    rfl
  have h := (C10_global_clustering_burst_tag
    [⟨"aa", "bb", 1, 1, 1, 0, [], 1, false⟩] [0] 8 0).1
    ⟨0, 0, [0], 0,
      [(score_images [⟨"aa", "bb", 1, 1, 1, 0, [], 1, false⟩]).getD 0 0]⟩
    (by rw [hev]; exact List.mem_singleton_self _)
  exact ⟨h.1, h.2.2⟩

/-! ## C3: how invalid configuration and malformed records actually
behave

The repository defines no `ConfigurationError` or `MalformedRecordError`
(no such classes or raises exist anywhere in the source); negative
thresholds, mismatched face-blur lists and duplicate ids are all consumed
silently.  The lemmas below characterize that silent behaviour. -/

/-- With a negative threshold nothing is ever similar. -/
theorem isSimilar_of_neg (a b : HashItem) (T : ℤ) (hT : T < 0) :
    isSimilar a b T = false := by
  have h2 : T.fdiv 2 = T / 2 := Int.fdiv_eq_ediv T (by norm_num)
  simp only [isSimilar, h2, Bool.or_eq_false_iff, Bool.and_eq_false_iff,
    decide_eq_false_iff_not, not_le]
  omega

/-- With a negative threshold the absorb scan absorbs nothing. -/
theorem absorb_of_neg (item : HashItem) (T : ℤ) (hT : T < 0) :
    ∀ (rest : List HashItem) (clustered : List Nat),
      absorb item T rest clustered = ([], clustered) := by
  intro rest
  induction rest with
  | nil => intro c; rfl
  | cons o rest ih =>
    intro c
    rw [absorb]
    by_cases hc : o.idx ∈ c
    · rw [if_pos hc]
      exact ih c
    · rw [if_neg hc]
      simp only [isSimilar_of_neg item o T hT, Bool.false_eq_true, if_false]
      exact ih c

/-- With a negative threshold the greedy pass yields singletons. -/
theorem greedyCluster_of_neg (T : ℤ) (hT : T < 0) :
    ∀ (items : List HashItem) (clustered : List Nat),
      (items.map (fun it => it.idx)).Nodup →
      (∀ it ∈ items, it.idx ∉ clustered) →
      greedyCluster T items clustered = items.map (fun it => [it.idx]) := by
  intro items
  induction items with
  | nil => intro c _ _; rfl
  | cons it rest ih =>
    intro c hnd hdisj
    rw [greedyCluster, if_neg (hdisj it (List.mem_cons_self _ _)),
      absorb_of_neg it T hT rest (it.idx :: c)]
    rw [List.map_cons, List.nodup_cons] at hnd
    have hrest : greedyCluster T rest (it.idx :: c) =
        rest.map (fun it => [it.idx]) := by
      refine ih (it.idx :: c) hnd.2 ?_
      intro o ho
      rw [List.mem_cons, not_or]
      refine ⟨?_, hdisj o (List.mem_cons_of_mem _ ho)⟩
      intro hcon
      exact hnd.1 (hcon ▸ List.mem_map.mpr ⟨o, ho, rfl⟩)
    show (it.idx :: ([] : List Nat)) :: greedyCluster T rest (it.idx :: c) =
      (it :: rest).map (fun it => [it.idx])
    rw [hrest]
    rfl

/-- C3 (amended): no explicit error kinds exist; invalid configuration is
recovered silently — a negative hash-distance threshold makes no two
records similar (each record with valid fingerprints and a distinct id
becomes its own singleton cluster), and a negative burst-gap threshold
makes every burst a singleton. -/
theorem C3_silent_recovery (items : List HashItem) (T : ℤ)
    (tss : List ℚ) (g : ℚ) :
    (T < 0 → (∀ it ∈ items, validHashes it) →
      (items.map (fun it => it.idx)).Nodup →
      cluster_by_hash items T = items.map (fun it => [it.idx])) ∧
    (g < 0 → ∀ b ∈ group_into_bursts tss g, ∃ i, b = [i]) := by
  constructor
  · intro hT hvalid hnd
    rw [cluster_by_hash_split]
    have hval : items.filter validHashes = items :=
      List.filter_eq_self.mpr hvalid
    have hinv : items.filter (fun it => !validHashes it) = [] := by
      rw [List.filter_eq_nil_iff]
      intro a ha
      simp [hvalid a ha]
    rw [hval, hinv, greedyCluster_of_neg T hT items [] hnd (by simp)]
    simp
  · intro hg b hb
    rcases hs : sortByTs tss.enum with _ | ⟨x, rest⟩
    · have : group_into_bursts tss g = [] := by
        rw [group_into_bursts, hs]
      rw [this] at hb
      simp at hb
    · rw [group_into_bursts_eq tss g x rest hs] at hb
      rcases List.mem_map.mp hb with ⟨bp, hbp, hbpb⟩
      have hchain := buildBursts_chain g rest x bp hbp
      have hsorted : List.Pairwise (fun p q : Nat × ℚ => p.2 ≤ q.2) bp := by
        refine pairwise_of_flatten (buildBursts g x rest) ?_ bp hbp
        rw [buildBursts_join, ← hs]
        exact sortByTs_pairwise tss.enum
      rcases bp with _ | ⟨p, bp'⟩
      · exact absurd rfl (buildBursts_ne_nil g rest x [] hbp)
      · rcases bp' with _ | ⟨q, bp''⟩
        · exact ⟨p.1, by rw [← hbpb]; rfl⟩
        · exfalso
          rw [List.chain'_cons] at hchain
          rw [List.pairwise_cons] at hsorted
          have h1 : (q.2 - p.2) * 1000 ≤ g := hchain.1
          have h2 : p.2 ≤ q.2 := hsorted.1 q (List.mem_cons_self _ _)
          nlinarith

/-- Counterexample for C3 as stated: the code surfaces no error for any
of the three conditions — a negative threshold, a record whose face-blur
list length disagrees with its face-count, and duplicate ids all produce
ordinary results (the duplicate id is even dropped silently). -/
theorem C3_counterexample :
    cluster_by_hash [⟨0, "aa", "bb"⟩, ⟨1, "aa", "bb"⟩] (-1) = [[0], [1]] ∧
    group_into_bursts [0, 1] (-1) = [[0], [1]] ∧
    score_images [⟨"aa", "bb", 1, 1, 1, 2, [1], 1, false⟩] = [17/20] ∧
    cluster_by_hash [⟨0, "aa", "bb"⟩, ⟨0, "cc", "dd"⟩] 8 = [[0]] := by
  refine ⟨by decide, ?_, ?_, by decide⟩
  · have hsort : sortByTs ([0, 1] : List ℚ).enum = [(0, 0), (1, 1)] := by
      norm_num [sortByTs, insertByTs, List.enum, List.enumFrom]
    have h1 : group_into_bursts [0, 1] (-1) =
        burstLoop (-1) [(1, 1)] 0 [0] [] := by
      rw [group_into_bursts, hsort]
    rw [h1, burstLoop]
    norm_num [burstLoop]
  · have hstd : listStd [1] = 0 := by
      refine listStd_const _ 1 ?_
      intro x hx
      simpa using hx
    have hz : sharpnessZ [1] 1 = 0 := sharpnessZ_of_std_zero _ _ hstd
    simp only [score_images, List.map_cons, List.map_nil, hz]
    norm_num [preClampScore, clampScore, min_def, max_def, listMean]

/-- Witness for C3 (amended): a negative threshold at concrete inputs. -/
theorem C3_silent_recovery_witness :
    cluster_by_hash [⟨0, "aa", "bb"⟩, ⟨1, "cc", "dd"⟩] (-5) =
      [[0], [1]] ∧ (∃ i, ([0] : List Nat) = [i]) := by
  constructor
  · exact (C3_silent_recovery [⟨0, "aa", "bb"⟩, ⟨1, "cc", "dd"⟩] (-5) [] 0).1
      (by decide) (by decide) (by decide)
  · refine (C3_silent_recovery [] 0 [7] (-1)).2 (by norm_num) [0] ?_
    have : group_into_bursts [7] (-1) = [[0]] := rfl
    rw [this]
    exact List.mem_singleton_self _

end PhotoCull
